import Mathlib

/- Verification development for the shipment-inspection dashboard
   (assets/scripts/app.js): header normalization, column resolution,
   status classification, row-identity edits and the analytics rollups.

   Modelling conventions:
   * JS strings are Lean `String`s (lists of Unicode scalar values);
     `toLowerCase` is modelled as ASCII case folding (the domain is
     ASCII, per the specification).
   * JS objects holding row data are ordered association lists with
     distinct keys (`Row`).
   * `Math.round((f / t) * 100)` over the nonnegative counters is
     modelled exactly over the rationals as round-half-up,
     `(200*f + t) / (2*t)` in natural-number arithmetic.
   * The default string sort of `Array.prototype.sort` is modelled as
     lexicographic order on scalar values (it coincides with the JS
     code-unit order on the Basic Multilingual Plane).
   * The `CompletionPercent` cell is serialized as `pct + "%"` by the
     code; the numeric `pct` is what the records below carry. -/

/-- Character class of the JS regex `\s`, which is also the character
set removed by `String.prototype.trim`. -/
def isSp (c : Char) : Bool :=
  c.toNat = 32 || (9 ≤ c.toNat && c.toNat ≤ 13) || c.toNat = 0xA0 ||
  c.toNat = 0x1680 || (0x2000 ≤ c.toNat && c.toNat ≤ 0x200A) ||
  c.toNat = 0x2028 || c.toNat = 0x2029 || c.toNat = 0x202F ||
  c.toNat = 0x205F || c.toNat = 0x3000 || c.toNat = 0xFEFF

/-- Character class of the JS regex `\w` (letters, digits, underscore). -/
def isWordChar (c : Char) : Bool :=
  (65 ≤ c.toNat && c.toNat ≤ 90) || (97 ≤ c.toNat && c.toNat ≤ 122) ||
  (48 ≤ c.toNat && c.toNat ≤ 57) || c.toNat = 95

/-- ASCII lower-casing of one character (model of JS `toLowerCase` on
the ASCII domain). -/
def lowCh (c : Char) : Char :=
  if 65 ≤ c.toNat ∧ c.toNat ≤ 90 then Char.ofNat (c.toNat + 32) else c

/-- Lower-case every character of a list. -/
def lowerL (l : List Char) : List Char := l.map lowCh

/-- Remove trailing JS whitespace. -/
def dropTrailingSp (l : List Char) : List Char := (l.reverse.dropWhile isSp).reverse

/-- Model of JS `String.prototype.trim` on the underlying character list. -/
def trimL (l : List Char) : List Char := dropTrailingSp (l.dropWhile isSp)

/-- Does `hay` start with `needle`? -/
def startsWithL : List Char → List Char → Bool
  | [], _ => true
  | _ :: _, [] => false
  | a :: as, b :: bs => a = b && startsWithL as bs

/-- Does `needle` occur as a contiguous substring of the second list?
Model of JS `String.prototype.includes` / a literal-substring regex test. -/
def containsL (needle : List Char) : List Char → Bool
  | [] => startsWithL needle []
  | c :: rest => startsWithL needle (c :: rest) || containsL needle rest

/-- After `in`, the regex `in\s*progress` skips whitespace and then
requires the literal `progress` (the greedy skip is equivalent because
`p` is not a whitespace character). -/
def spacesThenProgress : List Char → Bool
  | [] => false
  | c :: rest =>
    if isSp c then spacesThenProgress rest
    else startsWithL ('p' :: 'r' :: 'o' :: 'g' :: 'r' :: 'e' :: 's' :: 's' :: []) (c :: rest)

/-- Does the JS regex `in\s*progress` match at the head of the list? -/
def inProgAt : List Char → Bool
  | a :: b :: rest => a = 'i' && b = 'n' && spacesThenProgress rest
  | _ => false

/-- Does the JS regex `in\s*progress` match anywhere in the list
(model of `.test`)? -/
def containsInProg : List Char → Bool
  | [] => false
  | c :: rest => inProgAt (c :: rest) || containsInProg rest

/-- Lexicographic comparison of character lists by scalar value
(model of the default comparator of `Array.prototype.sort`). -/
def lexLe : List Char → List Char → Bool
  | [], _ => true
  | _ :: _, [] => false
  | a :: as, b :: bs =>
    if a.toNat < b.toNat then true
    else if b.toNat < a.toNat then false
    else lexLe as bs

/-- String order used when sorting rollup group keys. -/
def strLe (a b : String) : Prop := lexLe a.data b.data = true

instance : DecidableRel strLe := fun a b =>
  inferInstanceAs (Decidable (lexLe a.data b.data = true))

/-- Model of `normalizeKey` (app.js:72-78): trim, strip non-breaking
spaces, strip every non-word character, lower-case. -/
def normalizeKey (s : String) : String :=
  ⟨(((trimL s.data).filter (fun c => c.toNat != 0xA0)).filter isWordChar).map lowCh⟩

/-- A row object: ordered association list from header string to cell
value (JS object keys are distinct). -/
abbrev Row := List (String × String)

/-- Field access `r[k]` returning `none` when the key is absent. -/
def rowGet (r : Row) (k : String) : Option String :=
  (r.find? (fun kv => decide (kv.1 = k))).map (·.2)

/-- Field access `r[k] ?? ''` / `String(r[k] ?? '')`. -/
def lookupD (r : Row) (k : String) : String := (rowGet r k).getD ""

/-- JS object assignment `m[k] = v`: replace the value when the key is
present, append the pair otherwise. -/
def objInsert (m : Row) (k v : String) : Row :=
  if m.any (fun kv => decide (kv.1 = k)) then
    m.map (fun kv => if kv.1 = k then (k, v) else kv)
  else m ++ [(k, v)]

/-- The canonical schema `EXPECTED_COLS` (app.js:16). -/
def EXPECTED_COLS : List String :=
  ["NO", "ContainerNum", "BoxNum", "Container", "BoxName", "ItemCount",
   "Kits", "Factory", "REMARKS"]

/-- The alias table `COLUMN_ALIASES` (app.js:19-32), in literal insertion
order. -/
def COLUMN_ALIASES : List (String × String) :=
  [("basebox", "BoxNum"), ("box no", "BoxNum"), ("boxno", "BoxNum"),
   ("box number", "BoxNum"), ("box_number", "BoxNum"),
   ("remark", "REMARKS"), ("remarks", "REMARKS"), ("status", "REMARKS"),
   ("inspection status", "REMARKS")]

/-- Lookup `COLUMN_ALIASES[k]`. -/
def aliasTarget (k : String) : Option String :=
  (COLUMN_ALIASES.find? (fun kv => decide (kv.1 = k))).map (·.2)

/-- Model of `canonicalColumnFor` (app.js:81-96): empty normalized key
matches nothing; then exact match against the expected columns, the
alias map, and the singular of a trailing-`s` plural. -/
def canonicalColumnFor (header : String) : Option String :=
  let nk := normalizeKey header
  if nk = "" then none
  else
    match EXPECTED_COLS.find? (fun c => decide (normalizeKey c = nk)) with
    | some c => some c
    | none =>
      match aliasTarget nk with
      | some t => some t
      | none =>
        match nk.data.getLast? with
        | some c =>
          if c = 's' then
            match aliasTarget ⟨nk.data.dropLast⟩ with
            | some t => some t
            | none => none
          else none
        | none => none

/-- Truthiness-guarded find: the JS code only keeps a found header when
the header string is truthy, i.e. nonempty. -/
def tfind (hs : List String) (p : String → Bool) : Option String :=
  match hs.find? p with
  | some h => if h = "" then none else some h
  | none => none

/-- Lookup in `headerMap` (normalized key → original header).  The map
is built by a `forEach` assignment, so the last header with a given
normalized key wins; the result is used under a truthiness test. -/
def hmapT (hs : List String) (nk : String) : Option String :=
  tfind hs.reverse (fun h => decide (normalizeKey h = nk))

/-- Step 1 of column resolution (app.js:191): `headerMap[desiredNorm]`. -/
def step1 (hs : List String) (dn : String) : Option String := hmapT hs dn

/-- First alias entry whose canonical target is `col`
(`Object.entries(COLUMN_ALIASES).find(([k,v]) => v === col)`). -/
def firstAliasKeyFor (col : String) : Option String :=
  (COLUMN_ALIASES.find? (fun kv => decide (kv.2 = col))).map (·.1)

/-- Step 2 of column resolution (app.js:193-199): the first alias for the
column, looked up in `headerMap` (only reached when step 1 is falsy). -/
def step2 (hs : List String) (col : String) : Option String :=
  match firstAliasKeyFor col with
  | some ak => hmapT hs ak
  | none => none

/-- Step 3 of column resolution (app.js:201-204): first raw header whose
normalized key equals the desired key. -/
def step3 (hs : List String) (dn : String) : Option String :=
  tfind hs (fun h => decide (normalizeKey h = dn))

/-- Step 4 of column resolution (app.js:206-212): substring heuristic in
either direction between normalized keys. -/
def step4 (hs : List String) (dn : String) : Option String :=
  tfind hs (fun h =>
    containsL dn.data (normalizeKey h).data ||
    containsL (normalizeKey h).data dn.data)

/-- Step 5 of column resolution (app.js:215-223): scan every alias entry
targeting the column, in table order, through `headerMap`. -/
def step5 (hs : List String) (col : String) : Option String :=
  COLUMN_ALIASES.findSome? (fun kv => if kv.2 = col then hmapT hs kv.1 else none)

/-- Column resolution for one expected column (app.js:186-226): the five
steps tried in order, first truthy hit wins. -/
def resolveCol (hs : List String) (col : String) : Option String :=
  match step1 hs (normalizeKey col) with
  | some h => some h
  | none =>
    match step2 hs col with
    | some h => some h
    | none =>
      match step3 hs (normalizeKey col) with
      | some h => some h
      | none =>
        match step4 hs (normalizeKey col) with
        | some h => some h
        | none => step5 hs col

/-- Value assigned to one canonical column of a row
(`nr[col] = foundOriginal ? r[foundOriginal] : ''`, app.js:225). -/
def canonValue (r : Row) (col : String) : String :=
  match resolveCol (r.map Prod.fst) col with
  | some hd => lookupD r hd
  | none => ""

/-- The canonical part of a normalized row, in `EXPECTED_COLS` order. -/
def canonPart (r : Row) : Row :=
  EXPECTED_COLS.map (fun col => (col, canonValue r col))

/-- The raw entries kept as extras (app.js:229-235): headers with no
`canonicalColumnFor` match. -/
def rowExtras (r : Row) : Row :=
  r.filter (fun kv => (canonicalColumnFor kv.1).isNone)

/-- Row normalization (app.js:178-238): every expected column is set from
its resolved header (empty string when unresolved), then every raw header
with no `canonicalColumnFor` match is copied in unchanged as an extra
(JS object assignment). -/
def resolveRow (r : Row) : Row :=
  (rowExtras r).foldl (fun m kv => objInsert m kv.1 kv.2) (canonPart r)

/-- Model of `isCompleted` (app.js:98-101): false on null/undefined,
otherwise `/done/i.test(String(remarks))`. -/
def isCompletedO : Option String → Bool
  | none => false
  | some s => containsL "done".data (lowerL s.data)

/-- Completion of a row's REMARKS field. -/
def isCompletedRow (r : Row) : Bool := isCompletedO (rowGet r "REMARKS")

/-- The closed status taxonomy.  The code uses the display strings
`Completed`, `In Progress`, `Not Started`. -/
inductive Status where
  | Completed
  | InProgress
  | NotStarted
deriving DecidableEq, Repr

/-- Model of `classifyStatus` (app.js:518-531): `rem` is the trimmed,
lower-cased remarks text, then the ordered rules (contains `done`;
matches `in\s*progress`; empty or an anchored `n/a`/`na`/`not started`;
catch-all). -/
def classifyStatus (remarks : String) : Status :=
  if containsL "done".data (lowerL (trimL remarks.data)) then .Completed
  else if containsInProg (lowerL (trimL remarks.data)) then .InProgress
  else if lowerL (trimL remarks.data) = [] ∨
       lowerL (trimL remarks.data) = "n/a".data ∨
       lowerL (trimL remarks.data) = "na".data ∨
       lowerL (trimL remarks.data) = "not started".data then .NotStarted
  else .NotStarted

/-- The inline status predicates of the Dataset Controller's filter
(app.js:344-354), for one row's REMARKS text under a chosen status
option.  The code lower-cases without trimming, then tests `/done/i`,
`/(in progress|inprogress)/i`, and (trimmed-empty or)
`/(not started|n\/a|na)/i`, rejecting the row when the selected
category's predicate fails. -/
def statusKeep (fStatus : String) (remarks : String) : Bool :=
  !(decide (fStatus = "Finished") && !(containsL "done".data (lowerL remarks.data))) &&
  !(decide (fStatus = "In Progress") &&
    !(containsL "in progress".data (lowerL remarks.data) ||
      containsL "inprogress".data (lowerL remarks.data))) &&
  !(decide (fStatus = "Not Started") &&
    !(decide (trimL (lowerL remarks.data) = []) ||
      containsL "not started".data (lowerL remarks.data) ||
      containsL "n/a".data (lowerL remarks.data) ||
      containsL "na".data (lowerL remarks.data))) &&
  !(decide (fStatus = "Remaining") && containsL "done".data (lowerL remarks.data))

/-- Group key of a row in the per-container rollup (app.js:775):
`String(r.ContainerNum ?? "NA")` — only a missing field falls back to
the sentinel; an empty string is kept as the key. -/
def contKey (r : Row) : String :=
  match rowGet r "ContainerNum" with
  | none => "NA"
  | some v => v

/-- Factory label used to enumerate per-factory sheets (app.js:820):
`r.Factory || "UNKNOWN"` — both a missing and a blank factory fall back
to the sentinel. -/
def factoryLabel (r : Row) : String :=
  let f := lookupD r "Factory"
  if f = "" then "UNKNOWN" else f

/-- Percent math `Math.round((finished / total) * 100)` with the
division-by-zero case defined as 0 (modelled exactly as round-half-up
over the rationals). -/
def pctOf (finished total : Nat) : Nat :=
  if total = 0 then 0 else (200 * finished + total) / (2 * total)

/-- One rollup record of the Analytics sheets. -/
structure Rollup where
  container : String
  total : Nat
  finished : Nat
  remaining : Nat
  pct : Nat
deriving DecidableEq, Repr

/-- One step of the single-pass accumulation into `byContainer`:
increment the entry for the key, creating it at the end on first
sight (JS object insertion order). -/
def bump : List (String × Nat × Nat) → String → Nat → List (String × Nat × Nat)
  | [], k, f => [(k, 1, f)]
  | e :: rest, k, f =>
    if e.1 = k then (e.1, e.2.1 + 1, e.2.2 + f) :: rest
    else e :: bump rest k f

/-- Contribution of one row to the finished counter. -/
def finVal (r : Row) : Nat := if isCompletedRow r then 1 else 0

/-- The `byContainer` accumulator after the single pass (app.js:772-779). -/
def accumulate (rows : List Row) : List (String × Nat × Nat) :=
  rows.foldl (fun m r => bump m (contKey r) (finVal r)) []

/-- Lookup of one accumulated (total, finished) pair. -/
def accFind (m : List (String × Nat × Nat)) (k : String) : Option (Nat × Nat) :=
  (m.find? (fun e => decide (e.1 = k))).map (·.2)

/-- Sorted group keys of the accumulated `byContainer` map
(`Object.keys(byContainer).sort()`, app.js:784). -/
def analyticsKeys (rows : List Row) : List String :=
  List.insertionSort strLe ((accumulate rows).map (·.1))

/-- The rollup record pushed for one group key (app.js:785-795).  The
`none` branch is unreachable: every sorted key is a key of the map. -/
def analyticsRec (rows : List Row) (k : String) : Rollup :=
  match accFind (accumulate rows) k with
  | some tc => ⟨k, tc.1, tc.2, tc.1 - tc.2, pctOf tc.2 tc.1⟩
  | none => ⟨k, 0, 0, 0, pctOf 0 0⟩

/-- The per-group records of the Analytics sheet, in sorted key order. -/
def analyticsRecs (rows : List Row) : List Rollup :=
  (analyticsKeys rows).map (analyticsRec rows)

/-- The synthetic `ALL` record (app.js:801-809), summing the totals and
finished counts accumulated while emitting the group records. -/
def analyticsAll (rows : List Row) : Rollup :=
  ⟨"ALL", ((analyticsRecs rows).map Rollup.total).sum,
    ((analyticsRecs rows).map Rollup.finished).sum,
    ((analyticsRecs rows).map Rollup.total).sum -
      ((analyticsRecs rows).map Rollup.finished).sum,
    pctOf ((analyticsRecs rows).map Rollup.finished).sum
      ((analyticsRecs rows).map Rollup.total).sum⟩

/-- Model of `buildAnalytics` (app.js:771-812): accumulate per container,
sort the keys, emit one record per key, then the synthetic `ALL` record
summing the emitted totals and finished counts. -/
def buildAnalytics (rows : List Row) : List Rollup :=
  analyticsRecs rows ++ [analyticsAll rows]

/-- One record of the Summary sheet. -/
structure SummaryRec where
  factory : String
  total : Nat
  completed : Nat
  remaining : Nat
  pct : Nat
deriving DecidableEq, Repr

/-- The fixed factory priority list (app.js:819). -/
def factoryOrder : List String := ["F200", "F100", "AIO"]

/-- The per-factory record of the Summary sheet for one factory value
(app.js:831-849): rows filtered by strict equality on `Factory`; an
empty group is skipped. -/
def summaryRecFor (rows : List Row) (fac : String) : Option SummaryRec :=
  if ((rows.filter (fun r => decide (rowGet r "Factory" = some fac))).length = 0) then none
  else some ⟨fac,
    (rows.filter (fun r => decide (rowGet r "Factory" = some fac))).length,
    ((rows.filter (fun r => decide (rowGet r "Factory" = some fac))).filter isCompletedRow).length,
    (rows.filter (fun r => decide (rowGet r "Factory" = some fac))).length -
      ((rows.filter (fun r => decide (rowGet r "Factory" = some fac))).filter isCompletedRow).length,
    pctOf ((rows.filter (fun r => decide (rowGet r "Factory" = some fac))).filter isCompletedRow).length
      (rows.filter (fun r => decide (rowGet r "Factory" = some fac))).length⟩

/-- The per-factory records emitted for a priority list `os`. -/
def summaryRecsAux (rows : List Row) (os : List String) : List SummaryRec :=
  os.filterMap (summaryRecFor rows)

/-- The per-factory records of the Summary sheet, in priority order. -/
def summaryRecs (rows : List Row) : List SummaryRec :=
  summaryRecsAux rows factoryOrder

/-- The `ALL` record of the Summary sheet (app.js:851-860), summing the
emitted per-factory groups. -/
def summaryAll (rows : List Row) : SummaryRec :=
  ⟨"ALL", ((summaryRecs rows).map SummaryRec.total).sum,
    ((summaryRecs rows).map SummaryRec.completed).sum,
    ((summaryRecs rows).map SummaryRec.total).sum -
      ((summaryRecs rows).map SummaryRec.completed).sum,
    pctOf ((summaryRecs rows).map SummaryRec.completed).sum
      ((summaryRecs rows).map SummaryRec.total).sum⟩

/-- Model of `buildSummarySheet` (app.js:825-879): for each factory of the
fixed list in order, filter rows by strict equality on `Factory`, skip
empty groups, then append the `ALL` record summing the emitted groups. -/
def buildSummary (rows : List Row) : List SummaryRec :=
  summaryRecs rows ++ [summaryAll rows]

/-- The factory labels enumerated for the per-factory Analytics sheets
(app.js:820): `[...new Set(entry.rows.map(r => r.Factory || "UNKNOWN"))]`. -/
def factoriesList (rows : List Row) : List String :=
  rows.foldl (fun acc r => if factoryLabel r ∈ acc then acc else acc ++ [factoryLabel r]) []

/-- Content of the `Analytics_<fac>` sheet (app.js:890-895): analytics of
the rows whose `Factory` field strictly equals the label. -/
def analyticsSheetFor (rows : List Row) (fac : String) : List Rollup :=
  buildAnalytics (rows.filter (fun r => decide (rowGet r "Factory" = some fac)))

/-- The composite identifier (app.js:418/448):
`['NO','BoxNum','ContainerNum'].map(k => r[k] ?? '').join('||')`. -/
def joinKey3 (a b c : String) : String := a ++ "||" ++ b ++ "||" ++ c

/-- Primary row-identity key of a row. -/
def pkey (r : Row) : String :=
  joinKey3 (lookupD r "NO") (lookupD r "BoxNum") (lookupD r "ContainerNum")

/-- Fallback row-identity comparison (app.js:421-422/451-452): equality of
`String(BoxNum ?? '')` and `String(ContainerNum ?? '')`. -/
def fbMatch (rr snap : Row) : Bool :=
  decide (lookupD rr "BoxNum" = lookupD snap "BoxNum") &&
  decide (lookupD rr "ContainerNum" = lookupD snap "ContainerNum")

/-- Model of `Array.prototype.findIndex` as an optional index. -/
def findIdxOpt (p : α → Bool) : List α → Option Nat
  | [] => none
  | a :: as => if p a then some 0 else (findIdxOpt p as).map (· + 1)

/-- Row-identity resolution of an edit (app.js:419-423/449-453): first row
matching the joined primary key; on failure, first row matching the
fallback pair. -/
def findEditIndex (rows : List Row) (snap : Row) : Option Nat :=
  match findIdxOpt (fun rr => decide (pkey rr = pkey snap)) rows with
  | some i => some i
  | none => findIdxOpt (fun rr => fbMatch rr snap) rows

/-- Assignment of the edited field on the targeted row. -/
def setField (row : Row) (f v : String) : Row := objInsert row f v

/-- Model of the edit listener body (app.js:445-459): locate the row via
`findEditIndex` and assign the new value there; no match is a no-op. -/
def applyEdit (rows : List Row) (snap : Row) (f v : String) : List Row :=
  match findEditIndex rows snap with
  | none => rows
  | some i =>
    match rows[i]? with
    | some row => rows.set i (setField row f v)
    | none => rows

/-- The three-row example of the specification (section 8), as raw rows
fed through column resolution. -/
def exampleRows : List Row :=
  [[("Container", "1"), ("REMARKS", "Done")],
   [("Container", "1"), ("REMARKS", "")],
   [("Container", "2"), ("REMARKS", "Done")]]

/-- Identity triple of a row, read as the edit listener reads it. -/
def rowTriple (r : Row) : String × String × String :=
  (lookupD r "NO", lookupD r "BoxNum", lookupD r "ContainerNum")

/-- Row whose joined identity key collides with `cexRowB` although the
triples differ (the separator occurs in a component value). -/
def cexRowA : Row :=
  [("NO", "a||b"), ("BoxNum", "c"), ("ContainerNum", "d"), ("REMARKS", "r1")]

/-- Row whose triple is distinct from `cexRowA` but shares its joined key. -/
def cexRowB : Row :=
  [("NO", "a"), ("BoxNum", "b||c"), ("ContainerNum", "d"), ("REMARKS", "r2")]

/-- Dataset with a blank-Factory row and a row whose Factory is the
literal string `UNKNOWN`. -/
def c10Rows : List Row :=
  [[("Factory", "")], [("Factory", "UNKNOWN"), ("REMARKS", "done")]]

/-- Number of rows falling in the container group `k`. -/
def cnt (rows : List Row) (k : String) : Nat :=
  (rows.filter (fun r => decide (contKey r = k))).length

/-- Number of completed rows falling in the container group `k`. -/
def cntF (rows : List Row) (k : String) : Nat :=
  (rows.filter (fun r => decide (contKey r = k) && isCompletedRow r)).length

/- ------------------------------------------------------------------ -/
/- Helper lemmas                                                      -/
/- ------------------------------------------------------------------ -/

theorem lexLe_total : ∀ l m : List Char, lexLe l m = true ∨ lexLe m l = true := by
  intro l
  induction l with
  | nil => intro m; left; rfl
  | cons a as ih =>
    intro m
    cases m with
    | nil => right; rfl
    | cons b bs =>
      by_cases h1 : a.toNat < b.toNat
      · left; simp [lexLe, h1]
      · by_cases h2 : b.toNat < a.toNat
        · right; simp [lexLe, h2]
        · rcases ih bs with h | h
          · left; simp [lexLe, h1, h2, h]
          · right; simp [lexLe, h1, h2, h]

theorem lexLe_trans :
    ∀ a b c : List Char, lexLe a b = true → lexLe b c = true → lexLe a c = true := by
  intro a
  induction a with
  | nil => intro b c _ _; rfl
  | cons x xs ih =>
    intro b c hab hbc
    cases b with
    | nil => simp [lexLe] at hab
    | cons y ys =>
      cases c with
      | nil => simp [lexLe] at hbc
      | cons z zs =>
        simp only [lexLe] at hab hbc ⊢
        split_ifs at hab hbc ⊢ with h1 h2 h3 h4 h5 h6 <;>
          first
            | rfl
            | omega
            | (exact ih ys zs hab hbc)

instance : IsTotal String strLe := ⟨fun a b => lexLe_total a.data b.data⟩

instance : IsTrans String strLe :=
  ⟨fun a b c hab hbc => lexLe_trans a.data b.data c.data hab hbc⟩

theorem findIdxOpt_eq_none {α : Type} (p : α → Bool) :
    ∀ l : List α, findIdxOpt p l = none ↔ ∀ a ∈ l, p a = false := by
  intro l
  induction l with
  | nil => simp [findIdxOpt]
  | cons a as ih =>
    by_cases h : p a = true
    · simp [findIdxOpt, h]
    · simp only [Bool.not_eq_true] at h
      simp [findIdxOpt, h, ih]

theorem findIdxOpt_eq_some {α : Type} (p : α → Bool) :
    ∀ (l : List α) (i : Nat), findIdxOpt p l = some i →
      ∃ a, l[i]? = some a ∧ p a = true ∧
        ∀ j b, j < i → l[j]? = some b → p b = false := by
  intro l
  induction l with
  | nil => intro i h; simp [findIdxOpt] at h
  | cons a as ih =>
    intro i h
    by_cases hp : p a = true
    · simp [findIdxOpt, hp] at h
      subst h
      exact ⟨a, by simp, hp, fun j b hj _ => absurd hj (by omega)⟩
    · simp only [Bool.not_eq_true] at hp
      simp [findIdxOpt, hp] at h
      obtain ⟨i', h1, h2⟩ := h
      obtain ⟨b, hb1, hb2, hb3⟩ := ih i' h1
      subst h2
      refine ⟨b, by simpa using hb1, hb2, ?_⟩
      intro j c hj hc
      cases j with
      | zero =>
        simp at hc
        subst hc
        exact hp
      | succ j' =>
        simp at hc
        exact hb3 j' c (by omega) hc

theorem length_filter_partition {α : Type} (p : α → Bool) :
    ∀ l : List α, (l.filter p).length + (l.filter (fun a => !(p a))).length = l.length := by
  intro l
  induction l with
  | nil => rfl
  | cons a as ih =>
    by_cases h : p a = true <;> simp [List.filter_cons, h] <;> omega

theorem length_filter_mono {α : Type} (p q : α → Bool) (hpq : ∀ a, q a = true → p a = true) :
    ∀ l : List α, (l.filter q).length ≤ (l.filter p).length := by
  intro l
  induction l with
  | nil => simp
  | cons a as ih =>
    by_cases hq : q a = true
    · simp [List.filter_cons, hq, hpq a hq]
      omega
    · simp only [Bool.not_eq_true] at hq
      by_cases hp : p a = true <;> simp [List.filter_cons, hq, hp] <;> omega

theorem any_iff_filter_len {α : Type} (p : α → Bool) (l : List α) :
    l.any p = true ↔ (l.filter p).length ≠ 0 := by
  rw [List.any_eq_true]
  constructor
  · rintro ⟨a, ha, hpa⟩
    have : a ∈ l.filter p := List.mem_filter.mpr ⟨ha, hpa⟩
    have := List.length_pos.mpr (List.ne_nil_of_mem this)
    omega
  · intro h
    have : 0 < (l.filter p).length := Nat.pos_of_ne_zero h
    obtain ⟨a, ha⟩ := List.exists_mem_of_length_pos this
    exact ⟨a, (List.mem_filter.mp ha).1, (List.mem_filter.mp ha).2⟩

theorem startsWithL_cons_space (n : List Char) (hne : n ≠ [])
    (hns : ∀ d ∈ n, isSp d = false) (c : Char) (hc : isSp c = true) (l : List Char) :
    startsWithL n (c :: l) = false := by
  cases n with
  | nil => exact absurd rfl hne
  | cons d ds =>
    have hd : isSp d = false := hns d (List.mem_cons_self d ds)
    have hdc : d ≠ c := by
      intro h
      rw [h, hc] at hd
      exact Bool.noConfusion hd
    simp [startsWithL, hdc]

theorem containsL_dropWhile_sp (n : List Char) (hne : n ≠ [])
    (hns : ∀ d ∈ n, isSp d = false) :
    ∀ l : List Char, containsL n (l.dropWhile isSp) = containsL n l := by
  intro l
  induction l with
  | nil => rfl
  | cons c cs ih =>
    by_cases hc : isSp c = true
    · have e : (c :: cs).dropWhile isSp = cs.dropWhile isSp := by
        simp [List.dropWhile_cons, hc]
      rw [e, ih]
      simp [containsL, startsWithL_cons_space n hne hns c hc]
    · have e : (c :: cs).dropWhile isSp = c :: cs := by
        simp [List.dropWhile_cons, hc]
      rw [e]

theorem startsWithL_append_space (c : Char) (hc : isSp c = true) :
    ∀ n : List Char, (∀ d ∈ n, isSp d = false) →
      ∀ m : List Char, startsWithL n (m ++ [c]) = startsWithL n m := by
  intro n
  induction n with
  | nil => intro _ m; rfl
  | cons d ds ih =>
    intro hns m
    cases m with
    | nil =>
      have hd : isSp d = false := hns d (List.mem_cons_self d ds)
      have hdc : d ≠ c := by
        intro h
        rw [h, hc] at hd
        exact Bool.noConfusion hd
      simp [startsWithL, hdc]
    | cons x xs =>
      show (decide (d = x) && startsWithL ds (xs ++ [c])) =
        (decide (d = x) && startsWithL ds xs)
      rw [ih (fun d hd => hns d (List.mem_cons_of_mem _ hd)) xs]

theorem containsL_append_space (c : Char) (hc : isSp c = true)
    (n : List Char) (hne : n ≠ []) (hns : ∀ d ∈ n, isSp d = false) :
    ∀ l : List Char, containsL n (l ++ [c]) = containsL n l := by
  intro l
  induction l with
  | nil =>
    cases n with
    | nil => exact absurd rfl hne
    | cons d ds =>
      have e1 : containsL (d :: ds) ([] ++ [c]) =
          (startsWithL (d :: ds) [c] || containsL (d :: ds) []) := rfl
      rw [e1, startsWithL_cons_space (d :: ds) hne hns c hc]
      rfl
  | cons x xs ih =>
    have e1 : containsL n ((x :: xs) ++ [c]) =
        (startsWithL n ((x :: xs) ++ [c]) || containsL n (xs ++ [c])) := rfl
    rw [e1, ih, startsWithL_append_space c hc n hns (x :: xs)]
    rfl

theorem containsL_dropTrailingSp (n : List Char) (hne : n ≠ [])
    (hns : ∀ d ∈ n, isSp d = false) (l : List Char) :
    containsL n (dropTrailingSp l) = containsL n l := by
  induction l using List.reverseRecOn with
  | nil => rfl
  | append_singleton m c ih =>
    by_cases hc : isSp c = true
    · have e : dropTrailingSp (m ++ [c]) = dropTrailingSp m := by
        simp [dropTrailingSp, List.reverse_append, List.dropWhile_cons, hc]
      rw [e, ih, containsL_append_space c hc n hne hns m]
    · have e : dropTrailingSp (m ++ [c]) = m ++ [c] := by
        simp [dropTrailingSp, List.reverse_append, List.dropWhile_cons, hc]
      rw [e]

theorem containsL_trimL (n : List Char) (hne : n ≠ [])
    (hns : ∀ d ∈ n, isSp d = false) (l : List Char) :
    containsL n (trimL l) = containsL n l := by
  unfold trimL
  rw [containsL_dropTrailingSp n hne hns, containsL_dropWhile_sp n hne hns]

theorem inProgAt_cons_space (c : Char) (hc : isSp c = true) (l : List Char) :
    inProgAt (c :: l) = false := by
  have hci : c ≠ 'i' := by
    intro h
    subst h
    exact absurd hc (by decide)
  cases l with
  | nil => rfl
  | cons b rest => simp [inProgAt, hci]

theorem containsInProg_dropWhile_sp :
    ∀ l : List Char, containsInProg (l.dropWhile isSp) = containsInProg l := by
  intro l
  induction l with
  | nil => rfl
  | cons c cs ih =>
    by_cases hc : isSp c = true
    · have e : (c :: cs).dropWhile isSp = cs.dropWhile isSp := by
        simp [List.dropWhile_cons, hc]
      rw [e, ih]
      simp [containsInProg, inProgAt_cons_space c hc]
    · have e : (c :: cs).dropWhile isSp = c :: cs := by
        simp [List.dropWhile_cons, hc]
      rw [e]

theorem spacesThenProgress_append (c : Char) (hc : isSp c = true) :
    ∀ rest : List Char, spacesThenProgress (rest ++ [c]) = spacesThenProgress rest := by
  intro rest
  induction rest with
  | nil => simp [spacesThenProgress, hc]
  | cons x xs ih =>
    by_cases hx : isSp x = true
    · simp only [List.cons_append, spacesThenProgress, hx, if_true]
      exact ih
    · simp only [List.cons_append, spacesThenProgress, hx, if_false]
      exact startsWithL_append_space c hc _ (by decide) (x :: xs)

theorem inProgAt_append (c : Char) (hc : isSp c = true) :
    ∀ m : List Char, inProgAt (m ++ [c]) = inProgAt m := by
  have hcn : c ≠ 'n' := by
    intro h
    subst h
    exact absurd hc (by decide)
  intro m
  cases m with
  | nil => rfl
  | cons x m2 =>
    cases m2 with
    | nil => simp [inProgAt, hcn]
    | cons y rest =>
      simp only [List.cons_append, inProgAt]
      rw [spacesThenProgress_append c hc rest]

theorem containsInProg_append (c : Char) (hc : isSp c = true) :
    ∀ l : List Char, containsInProg (l ++ [c]) = containsInProg l := by
  intro l
  induction l with
  | nil => simp [containsInProg, inProgAt_cons_space c hc]
  | cons x xs ih =>
    have e1 : containsInProg ((x :: xs) ++ [c]) =
        (inProgAt ((x :: xs) ++ [c]) || containsInProg (xs ++ [c])) := rfl
    rw [e1, ih, inProgAt_append c hc (x :: xs)]
    rfl

theorem containsInProg_dropTrailingSp (l : List Char) :
    containsInProg (dropTrailingSp l) = containsInProg l := by
  induction l using List.reverseRecOn with
  | nil => rfl
  | append_singleton m c ih =>
    by_cases hc : isSp c = true
    · have e : dropTrailingSp (m ++ [c]) = dropTrailingSp m := by
        simp [dropTrailingSp, List.reverse_append, List.dropWhile_cons, hc]
      rw [e, ih, containsInProg_append c hc m]
    · have e : dropTrailingSp (m ++ [c]) = m ++ [c] := by
        simp [dropTrailingSp, List.reverse_append, List.dropWhile_cons, hc]
      rw [e]

theorem containsInProg_trimL (l : List Char) :
    containsInProg (trimL l) = containsInProg l := by
  unfold trimL
  rw [containsInProg_dropTrailingSp, containsInProg_dropWhile_sp]

theorem isSp_lowCh (c : Char) : isSp (lowCh c) = isSp c := by
  unfold lowCh
  split_ifs with h
  · have hv : (c.toNat + 32).isValidChar := Or.inl (by omega)
    have h1 : (Char.ofNat (c.toNat + 32)).toNat = c.toNat + 32 := by
      simp [Char.ofNat, hv]
      rfl
    have e1 : isSp (Char.ofNat (c.toNat + 32)) = false := by
      simp [isSp, h1]
      omega
    have e2 : isSp c = false := by
      simp [isSp]
      omega
    rw [e1, e2]
  · rfl

theorem dropWhile_sp_map_lowCh :
    ∀ l : List Char, (l.map lowCh).dropWhile isSp = (l.dropWhile isSp).map lowCh := by
  intro l
  induction l with
  | nil => rfl
  | cons c cs ih =>
    by_cases hc : isSp c = true
    · have h2 : isSp (lowCh c) = true := by rw [isSp_lowCh]; exact hc
      simp [List.dropWhile_cons, hc, h2, ih]
    · simp only [Bool.not_eq_true] at hc
      have h2 : isSp (lowCh c) = false := by rw [isSp_lowCh]; exact hc
      simp [List.dropWhile_cons, hc, h2]

theorem trimL_map_lowCh (l : List Char) :
    trimL (l.map lowCh) = (trimL l).map lowCh := by
  unfold trimL dropTrailingSp
  rw [dropWhile_sp_map_lowCh, ← List.map_reverse, dropWhile_sp_map_lowCh,
    ← List.map_reverse]

theorem containsL_lower_trim (n : List Char) (hne : n ≠ [])
    (hns : ∀ d ∈ n, isSp d = false) (s : List Char) :
    containsL n (lowerL (trimL s)) = containsL n (lowerL s) := by
  unfold lowerL
  rw [← trimL_map_lowCh]
  exact containsL_trimL n hne hns (s.map lowCh)

theorem containsInProg_lower_trim (s : List Char) :
    containsInProg (lowerL (trimL s)) = containsInProg (lowerL s) := by
  unfold lowerL
  rw [← trimL_map_lowCh]
  exact containsInProg_trimL (s.map lowCh)

theorem classifyStatus_eq (s : String) :
    classifyStatus s =
      (if containsL "done".data (lowerL s.data) then Status.Completed
       else if containsInProg (lowerL s.data) then Status.InProgress
       else Status.NotStarted) := by
  unfold classifyStatus
  rw [containsL_lower_trim "done".data (by decide) (by decide) s.data,
    containsInProg_lower_trim s.data]
  by_cases h1 : containsL "done".data (lowerL s.data) = true
  · simp [h1]
  · simp only [Bool.not_eq_true] at h1
    by_cases h2 : containsInProg (lowerL s.data) = true
    · simp [h1, h2]
    · simp only [Bool.not_eq_true] at h2
      simp [h1, h2]

theorem classify_completed_iff (s : String) :
    classifyStatus s = Status.Completed ↔
      containsL "done".data (lowerL s.data) = true := by
  rw [classifyStatus_eq]
  cases h1 : containsL "done".data (lowerL s.data) with
  | false => cases h2 : containsInProg (lowerL s.data) <;> simp [h1, h2]
  | true => simp [h1]

theorem classify_inprogress_iff (s : String) :
    classifyStatus s = Status.InProgress ↔
      (containsL "done".data (lowerL s.data) = false ∧
       containsInProg (lowerL s.data) = true) := by
  rw [classifyStatus_eq]
  cases h1 : containsL "done".data (lowerL s.data) with
  | false => cases h2 : containsInProg (lowerL s.data) <;> simp [h1, h2]
  | true => simp [h1]

theorem classify_notstarted_iff (s : String) :
    classifyStatus s = Status.NotStarted ↔
      (containsL "done".data (lowerL s.data) = false ∧
       containsInProg (lowerL s.data) = false) := by
  rw [classifyStatus_eq]
  cases h1 : containsL "done".data (lowerL s.data) with
  | false => cases h2 : containsInProg (lowerL s.data) <;> simp [h1, h2]
  | true => simp [h1]

/- ------------------------------------------------------------------ -/
/- Claim theorems                                                     -/
/- ------------------------------------------------------------------ -/

/-- C2: `classifyStatus` evaluates its rules in order with first match
winning: text containing `done` case-insensitively is Completed;
otherwise text matching the `in progress` pattern (spaced and unspaced)
is InProgress; otherwise the text (empty, an `n/a`/`na`/`not started`
token, or anything else) is NotStarted.  Text containing both an
in-progress phrase and `done` is Completed by rule-1 priority, and the
three concrete cases of the specification hold. -/
theorem c2_classifyStatus_rules :
    (∀ s : String,
      (classifyStatus s = Status.Completed ↔
        containsL "done".data (lowerL s.data) = true) ∧
      (classifyStatus s = Status.InProgress ↔
        (containsL "done".data (lowerL s.data) = false ∧
         containsInProg (lowerL s.data) = true)) ∧
      (classifyStatus s = Status.NotStarted ↔
        (containsL "done".data (lowerL s.data) = false ∧
         containsInProg (lowerL s.data) = false))) ∧
    (∀ s : String, containsInProg (lowerL s.data) = true →
      containsL "done".data (lowerL s.data) = true →
      classifyStatus s = Status.Completed) ∧
    classifyStatus "" = Status.NotStarted ∧
    classifyStatus "in progress" = Status.InProgress ∧
    classifyStatus "IN-PROGRESS-ish text with done later" = Status.Completed := by
  refine ⟨fun s => ⟨classify_completed_iff s, classify_inprogress_iff s,
      classify_notstarted_iff s⟩,
    fun s _ hdone => (classify_completed_iff s).mpr hdone,
    by decide, by decide, by decide⟩

/-- Witness for C2 at a concrete input. -/
theorem c2_classifyStatus_rules_witness : classifyStatus "Done" = Status.Completed :=
  (c2_classifyStatus_rules.1 "Done").1.mpr (by decide)

/-- C6 counterexample: the remarks text `xyz` classifies as NotStarted
under `classifyStatus` (catch-all rule), yet the Dataset Controller's
inline `Not Started` filter predicate rejects it, so the filter and the
classifier are not equivalent. -/
theorem c6_statusFilter_cex :
    statusKeep "Not Started" "xyz" = false ∧
    classifyStatus "xyz" = Status.NotStarted := by
  constructor
  · decide
  · decide

/-- C6 amended: the inline status filter agrees with `classifyStatus`
on the Finished/Completed category for every input; for the
`In Progress` and `Not Started` categories the inline predicates are
literal-substring tests that differ from the classifier. -/
theorem c6_statusFilter_finished_agrees :
    ∀ s : String, statusKeep "Finished" s = true ↔
      classifyStatus s = Status.Completed := by
  intro s
  have d0 : decide ("Finished" = "Finished") = true := by decide
  have d1 : decide ("Finished" = "In Progress") = false := by decide
  have d2 : decide ("Finished" = "Not Started") = false := by decide
  have d3 : decide ("Finished" = "Remaining") = false := by decide
  rw [classify_completed_iff s]
  simp [statusKeep, d0, d1, d2, d3]

/-- Witness for C6 at a concrete input. -/
theorem c6_statusFilter_finished_agrees_witness :
    statusKeep "Finished" "all done" = true :=
  (c6_statusFilter_finished_agrees "all done").mpr (by decide)

/-- C5 counterexample: with snapshot `cexRowB`, the edit is applied to
`cexRowA` (index 0), whose identity triple differs from the snapshot's,
while `cexRowB` — the only row whose (NO, BoxNum, ContainerNum) triple
equals the snapshot's — is left unchanged: the lookup compares the
`||`-joined key, which collides here, not the triple. -/
theorem c5_edit_cex :
    applyEdit [cexRowA, cexRowB] cexRowB "REMARKS" "X" =
      [[("NO", "a||b"), ("BoxNum", "c"), ("ContainerNum", "d"), ("REMARKS", "X")],
       cexRowB] ∧
    rowTriple cexRowB = ("a", "b||c", "d") ∧
    rowTriple cexRowA ≠ rowTriple cexRowB := by
  refine ⟨?_, ?_, ?_⟩ <;> decide

/-- C5 amended: the edit is applied to exactly the first row, in dataset
order, whose `||`-joined (NO, BoxNum, ContainerNum) key equals the
snapshot's; if no row matches the joined primary key, the first row
matching the fallback (BoxNum, ContainerNum) pair is used; all other
rows are unchanged, and when neither lookup matches the edit is a no-op
with no error. -/
theorem c5_applyEdit_resolution :
    ∀ (rows : List Row) (snap : Row) (f v : String),
      (findEditIndex rows snap = none →
        applyEdit rows snap f v = rows ∧
        ∀ rr ∈ rows, pkey rr ≠ pkey snap ∧ fbMatch rr snap = false) ∧
      (∀ i, findEditIndex rows snap = some i →
        ∃ row, rows[i]? = some row ∧
          applyEdit rows snap f v = rows.set i (setField row f v) ∧
          (∀ j, j ≠ i → (rows.set i (setField row f v))[j]? = rows[j]?) ∧
          ((pkey row = pkey snap ∧
              ∀ j b, j < i → rows[j]? = some b → pkey b ≠ pkey snap) ∨
           ((∀ rr ∈ rows, pkey rr ≠ pkey snap) ∧ fbMatch row snap = true ∧
              ∀ j b, j < i → rows[j]? = some b → fbMatch b snap = false))) := by
  intro rows snap f v
  cases h1 : findIdxOpt (fun rr => decide (pkey rr = pkey snap)) rows with
  | some i =>
    have hsome : findEditIndex rows snap = some i := by simp [findEditIndex, h1]
    constructor
    · intro hn
      rw [hsome] at hn
      exact Option.noConfusion hn
    · intro i' hi'
      rw [hsome] at hi'
      injection hi' with hii
      subst hii
      obtain ⟨row, hrow, hp, hmin⟩ := findIdxOpt_eq_some _ rows i h1
      refine ⟨row, hrow, ?_, ?_, Or.inl ⟨of_decide_eq_true hp, ?_⟩⟩
      · simp [applyEdit, hsome, hrow]
      · intro j hj
        exact List.getElem?_set_ne (Ne.symm hj)
      · intro j b hji hjb
        exact of_decide_eq_false (hmin j b hji hjb)
  | none =>
    have hall : ∀ rr ∈ rows, pkey rr ≠ pkey snap := by
      intro rr hrr
      exact of_decide_eq_false ((findIdxOpt_eq_none _ rows).mp h1 rr hrr)
    cases h2 : findIdxOpt (fun rr => fbMatch rr snap) rows with
    | none =>
      have hnone : findEditIndex rows snap = none := by simp [findEditIndex, h1, h2]
      constructor
      · intro _
        refine ⟨by simp [applyEdit, hnone], ?_⟩
        intro rr hrr
        exact ⟨hall rr hrr, (findIdxOpt_eq_none _ rows).mp h2 rr hrr⟩
      · intro i hi
        rw [hnone] at hi
        exact Option.noConfusion hi
    | some i =>
      have hsome : findEditIndex rows snap = some i := by simp [findEditIndex, h1, h2]
      constructor
      · intro hn
        rw [hsome] at hn
        exact Option.noConfusion hn
      · intro i' hi'
        rw [hsome] at hi'
        injection hi' with hii
        subst hii
        obtain ⟨row, hrow, hp, hmin⟩ := findIdxOpt_eq_some _ rows i h2
        refine ⟨row, hrow, ?_, ?_, Or.inr ⟨hall, hp, ?_⟩⟩
        · simp [applyEdit, hsome, hrow]
        · intro j hj
          exact List.getElem?_set_ne (Ne.symm hj)
        · intro j b hji hjb
          exact hmin j b hji hjb

/-- Witness for C5 at a concrete input (empty dataset: no-op). -/
theorem c5_applyEdit_resolution_witness :
    applyEdit ([] : List Row) [] "REMARKS" "x" = [] :=
  ((c5_applyEdit_resolution [] [] "REMARKS" "x").1 (by decide)).1

/-- C9 counterexample: two rows with distinct (NO, BoxNum, ContainerNum)
triples share the same joined primary key, because the separator `||`
occurs inside a component value — the joined key is not injective on
triples. -/
theorem c9_joinKey_cex :
    pkey cexRowA = pkey cexRowB ∧ rowTriple cexRowA ≠ rowTriple cexRowB := by
  refine ⟨?_, ?_⟩ <;> decide

theorem append_bar_inj :
    ∀ (a a' m m' : List Char), (∀ ch ∈ a, ch ≠ '|') → (∀ ch ∈ a', ch ≠ '|') →
      a ++ '|' :: '|' :: m = a' ++ '|' :: '|' :: m' → a = a' ∧ m = m' := by
  intro a
  induction a with
  | nil =>
    intro a' m m' _ ha' h
    cases a' with
    | nil =>
      simp at h
      exact ⟨rfl, h⟩
    | cons x xs =>
      simp at h
      exact absurd h.1.symm (ha' x (List.mem_cons_self x xs))
  | cons y ys ih =>
    intro a' m m' ha ha' h
    cases a' with
    | nil =>
      simp at h
      exact absurd h.1 (ha y (List.mem_cons_self y ys))
    | cons x xs =>
      simp at h
      obtain ⟨hxy, hrest⟩ := h
      obtain ⟨h1, h2⟩ := ih xs m m' (fun ch hch => ha ch (List.mem_cons_of_mem _ hch))
        (fun ch hch => ha' ch (List.mem_cons_of_mem _ hch)) hrest
      exact ⟨by rw [hxy, h1], h2⟩

/-- C9 amended: the joined primary key uses the separator `||`, which is
not guaranteed absent from component values; on components that contain
no `|` character the joined key is injective — keys are equal exactly
when the component triples are equal. -/
theorem c9_joinKey_injective_no_bar :
    ∀ a b c a' b' c' : String,
      (∀ ch ∈ a.data, ch ≠ '|') → (∀ ch ∈ b.data, ch ≠ '|') →
      (∀ ch ∈ c.data, ch ≠ '|') → (∀ ch ∈ a'.data, ch ≠ '|') →
      (∀ ch ∈ b'.data, ch ≠ '|') → (∀ ch ∈ c'.data, ch ≠ '|') →
      (joinKey3 a b c = joinKey3 a' b' c' ↔ (a = a' ∧ b = b' ∧ c = c')) := by
  intro a b c a' b' c' ha hb hc ha' hb' hc'
  constructor
  · intro h
    have hbar : ("||" : String).data = ['|', '|'] := rfl
    have hdata : a.data ++ '|' :: '|' :: (b.data ++ '|' :: '|' :: c.data) =
        a'.data ++ '|' :: '|' :: (b'.data ++ '|' :: '|' :: c'.data) := by
      have h2 := congrArg String.data h
      simpa [joinKey3, String.data_append, hbar, List.append_assoc] using h2
    obtain ⟨h1, hrest⟩ := append_bar_inj a.data a'.data _ _ ha ha' hdata
    obtain ⟨h2, h3⟩ := append_bar_inj b.data b'.data _ _ hb hb' hrest
    exact ⟨String.ext h1, String.ext h2, String.ext h3⟩
  · rintro ⟨rfl, rfl, rfl⟩
    rfl

/-- Witness for C9 at concrete separator-free components. -/
theorem c9_joinKey_injective_no_bar_witness :
    "1" = "1" ∧ "2" = "2" ∧ "3" = "3" :=
  (c9_joinKey_injective_no_bar "1" "2" "3" "1" "2" "3" (by decide) (by decide)
    (by decide) (by decide) (by decide) (by decide)).mp rfl

theorem tfind_eq_some (hs : List String) (p : String → Bool) (h : String)
    (htf : tfind hs p = some h) : p h = true ∧ h ≠ "" := by
  unfold tfind at htf
  cases hfind : hs.find? p with
  | none => rw [hfind] at htf; exact Option.noConfusion htf
  | some x =>
    simp only [hfind] at htf
    by_cases hx : x = ""
    · rw [if_pos hx] at htf
      exact Option.noConfusion htf
    · rw [if_neg hx] at htf
      injection htf with he
      subst he
      exact ⟨List.find?_some hfind, hx⟩

/-- C3 counterexample: the header `!!!` normalizes to the empty key,
yet column resolution matches it (via the substring heuristic, which
accepts the empty key as a substring of every canonical key) and
assigns its value to the canonical column `NO`. -/
theorem c3_empty_key_cex :
    normalizeKey "!!!" = "" ∧ resolveCol ["!!!"] "NO" = some "!!!" ∧
    lookupD (resolveRow [("!!!", "v")]) "NO" = "v" := by
  refine ⟨?_, ?_, ?_⟩ <;> decide

/-- C3 amended: the empty string normalizes to the empty key; a header
with an empty normalized key is never matched by `canonicalColumnFor`
nor by resolution steps 1, 2, 3 and 5 — but the substring heuristic
(step 4) does match such headers, as the concrete row shows. -/
theorem c3_empty_key_resolution :
    (normalizeKey "" = "") ∧
    (∀ hd : String, normalizeKey hd = "" → canonicalColumnFor hd = none) ∧
    (∀ (hs : List String) (hd col : String), col ∈ EXPECTED_COLS →
      normalizeKey hd = "" →
      step1 hs (normalizeKey col) ≠ some hd ∧
      step2 hs col ≠ some hd ∧
      step3 hs (normalizeKey col) ≠ some hd ∧
      step5 hs col ≠ some hd) ∧
    resolveCol ["!!!"] "NO" = some "!!!" := by
  have haliasne : ∀ kv ∈ COLUMN_ALIASES, kv.1 ≠ "" := by decide
  refine ⟨rfl, ?_, ?_, by decide⟩
  · intro hd hnk
    simp [canonicalColumnFor, hnk]
  · intro hs hd col hcol hnk
    have hdn : normalizeKey col ≠ "" := by
      have hall : ∀ c ∈ EXPECTED_COLS, normalizeKey c ≠ "" := by decide
      exact hall col hcol
    refine ⟨?_, ?_, ?_, ?_⟩
    · intro hstep
      unfold step1 hmapT at hstep
      obtain ⟨hp, _⟩ := tfind_eq_some _ _ _ hstep
      have heq := of_decide_eq_true hp
      rw [hnk] at heq
      exact hdn heq.symm
    · intro hstep
      unfold step2 at hstep
      cases halias : firstAliasKeyFor col with
      | none => rw [halias] at hstep; exact Option.noConfusion hstep
      | some ak =>
        rw [halias] at hstep
        unfold hmapT at hstep
        obtain ⟨hp, _⟩ := tfind_eq_some _ _ _ hstep
        have heq := of_decide_eq_true hp
        rw [hnk] at heq
        unfold firstAliasKeyFor at halias
        cases hfind : COLUMN_ALIASES.find? (fun kv => decide (kv.2 = col)) with
        | none => rw [hfind] at halias; exact Option.noConfusion halias
        | some kv =>
          rw [hfind] at halias
          injection halias with hak
          have hak2 : kv.1 = ak := hak
          have hmem := List.mem_of_find?_eq_some hfind
          have := haliasne kv hmem
          rw [hak2, ← heq] at this
          exact this rfl
    · intro hstep
      unfold step3 at hstep
      obtain ⟨hp, _⟩ := tfind_eq_some _ _ _ hstep
      have heq := of_decide_eq_true hp
      rw [hnk] at heq
      exact hdn heq.symm
    · intro hstep
      unfold step5 at hstep
      obtain ⟨kv, hmem, hkv⟩ := List.exists_of_findSome?_eq_some hstep
      by_cases hkc : kv.2 = col
      · rw [if_pos hkc] at hkv
        unfold hmapT at hkv
        obtain ⟨hp, _⟩ := tfind_eq_some _ _ _ hkv
        have heq := of_decide_eq_true hp
        rw [hnk] at heq
        have := haliasne kv hmem
        rw [← heq] at this
        exact this rfl
      · rw [if_neg hkc] at hkv
        exact Option.noConfusion hkv

/-- Witness for C3 at a concrete input. -/
theorem c3_empty_key_resolution_witness : canonicalColumnFor "###" = none :=
  c3_empty_key_resolution.2.1 "###" (by decide)

theorem rowGet_map_cols :
    ∀ (cols : List String) (g : String → String) (k : String), k ∈ cols →
      rowGet (cols.map (fun c => (c, g c))) k = some (g k) := by
  intro cols
  induction cols with
  | nil => intro g k hk; cases hk
  | cons c cs ih =>
    intro g k hk
    by_cases hck : c = k
    · subst hck
      simp [rowGet, List.find?_cons]
    · have hk2 : k ∈ cs := by
        rcases List.mem_cons.mp hk with h | h
        · exact absurd h.symm hck
        · exact h
      have e : rowGet ((c, g c) :: cs.map (fun c => (c, g c))) k =
          rowGet (cs.map (fun c => (c, g c))) k := by
        simp [rowGet, List.find?_cons, hck]
      simp only [List.map_cons]
      rw [e]
      exact ih g k hk2

theorem rowGet_append_left :
    ∀ (m ex : Row) (k v : String), rowGet m k = some v →
      rowGet (m ++ ex) k = some v := by
  intro m
  induction m with
  | nil => intro ex k v h; simp [rowGet] at h
  | cons kv m' ih =>
    intro ex k v h
    by_cases hk : kv.1 = k
    · subst hk
      have e1 : rowGet (kv :: m') kv.1 = some kv.2 := by
        simp [rowGet, List.find?_cons]
      have e2 : rowGet ((kv :: m') ++ ex) kv.1 = some kv.2 := by
        simp [rowGet, List.find?_cons]
      rw [e1] at h
      rw [e2]
      exact h
    · have e1 : rowGet (kv :: m') k = rowGet m' k := by
        simp [rowGet, List.find?_cons, hk]
      have e2 : rowGet ((kv :: m') ++ ex) k = rowGet (m' ++ ex) k := by
        simp [rowGet, List.find?_cons, hk]
      rw [e1] at h
      rw [e2]
      exact ih ex k v h

theorem rowGet_append_right :
    ∀ (m ex : Row) (k : String), (∀ kv ∈ m, kv.1 ≠ k) →
      rowGet (m ++ ex) k = rowGet ex k := by
  intro m
  induction m with
  | nil => intro ex k _; rfl
  | cons kv m' ih =>
    intro ex k h
    have h1 : kv.1 ≠ k := h kv (List.mem_cons_self _ _)
    have e : rowGet ((kv :: m') ++ ex) k = rowGet (m' ++ ex) k := by
      simp [rowGet, List.find?_cons, h1]
    rw [e]
    exact ih ex k (fun kv2 hkv2 => h kv2 (List.mem_cons_of_mem _ hkv2))

theorem rowGet_mem_nodup :
    ∀ (l : Row) (kv : String × String), (l.map Prod.fst).Nodup → kv ∈ l →
      rowGet l kv.1 = some kv.2 := by
  intro l
  induction l with
  | nil => intro kv _ hm; cases hm
  | cons e l' ih =>
    intro kv hnd hm
    simp only [List.map_cons, List.nodup_cons] at hnd
    rcases List.mem_cons.mp hm with h | h
    · subst h
      simp [rowGet, List.find?_cons]
    · have hne : e.1 ≠ kv.1 := fun hc => hnd.1 (hc ▸ List.mem_map_of_mem Prod.fst h)
      have e2 : rowGet (e :: l') kv.1 = rowGet l' kv.1 := by
        simp [rowGet, List.find?_cons, hne]
      rw [e2]
      exact ih kv hnd.2 h

theorem objInsert_fresh (m : Row) (k v : String) (h : ∀ kv ∈ m, kv.1 ≠ k) :
    objInsert m k v = m ++ [(k, v)] := by
  have hany : m.any (fun kv => decide (kv.1 = k)) = false := by
    rw [List.any_eq_false]
    intro kv hkv
    simp [h kv hkv]
  simp [objInsert, hany]

theorem foldl_objInsert_fresh :
    ∀ (ex : List (String × String)) (m : Row),
      (∀ kv ∈ ex, ∀ kv2 ∈ m, kv2.1 ≠ kv.1) → (ex.map Prod.fst).Nodup →
      ex.foldl (fun acc kv => objInsert acc kv.1 kv.2) m = m ++ ex := by
  intro ex
  induction ex with
  | nil => intro m _ _; simp
  | cons kv rest ih =>
    intro m hfresh hnd
    simp only [List.map_cons, List.nodup_cons] at hnd
    have e1 : objInsert m kv.1 kv.2 = m ++ [kv] := by
      rw [objInsert_fresh m kv.1 kv.2
        (fun kv2 hkv2 => hfresh kv (List.mem_cons_self _ _) kv2 hkv2)]
    have hf : ∀ kv2 ∈ rest, ∀ kv3 ∈ m ++ [kv], kv3.1 ≠ kv2.1 := by
      intro kv2 hkv2 kv3 hkv3
      rcases List.mem_append.mp hkv3 with h3 | h3
      · exact hfresh kv2 (List.mem_cons_of_mem _ hkv2) kv3 h3
      · have hkv3' : kv3 = kv := by simpa using h3
        subst hkv3'
        intro hc
        exact hnd.1 (hc ▸ List.mem_map_of_mem Prod.fst hkv2)
    simp only [List.foldl_cons]
    rw [e1, ih (m ++ [kv]) hf hnd.2]
    simp

/-- C4 counterexample: the header `Contain` is matched by the substring
heuristic for `ContainerNum` (its value is assigned to that canonical
column), yet because `canonicalColumnFor` knows no such alias it is ALSO
copied into the normalized row as an extra field — extras are not
exactly the headers that matched no resolution path. -/
theorem c4_extras_cex :
    resolveCol ["Contain"] "ContainerNum" = some "Contain" ∧
    lookupD (resolveRow [("Contain", "x")]) "ContainerNum" = "x" ∧
    "Contain" ∈ (resolveRow [("Contain", "x")]).map Prod.fst := by
  refine ⟨?_, ?_, ?_⟩ <;> decide

/-- C4 amended: every normalized row consists of all nine canonical
columns (in schema order, an unresolved column holding the empty
string) followed by exactly the raw entries whose header has no
`canonicalColumnFor` match (exact/alias/plural on the normalized key —
independent of the substring resolution step), copied verbatim; extra
keys never coincide with canonical names, so extras never overwrite
canonical values. -/
theorem c4_resolveRow_shape :
    ∀ r : Row, (r.map Prod.fst).Nodup →
      resolveRow r = canonPart r ++ rowExtras r ∧
      (resolveRow r).map Prod.fst = EXPECTED_COLS ++ (rowExtras r).map Prod.fst ∧
      (∀ col ∈ EXPECTED_COLS, rowGet (resolveRow r) col = some (canonValue r col)) ∧
      (∀ kv ∈ r, (canonicalColumnFor kv.1).isNone = true →
        kv.1 ∉ EXPECTED_COLS ∧ kv ∈ rowExtras r ∧
        rowGet (resolveRow r) kv.1 = some kv.2) := by
  intro r hnd
  have hcanon_ne : ∀ k : String, (canonicalColumnFor k).isNone = true →
      k ∉ EXPECTED_COLS := by
    intro k hk hmem
    have hall : ∀ c ∈ EXPECTED_COLS, (canonicalColumnFor c).isSome = true := by decide
    have h2 := hall k hmem
    rw [Option.isNone_iff_eq_none] at hk
    rw [hk] at h2
    exact Bool.noConfusion h2
  have hextras_nd : ((rowExtras r).map Prod.fst).Nodup := by
    unfold rowExtras
    exact List.Nodup.sublist (List.Sublist.map Prod.fst (List.filter_sublist r)) hnd
  have hfresh : ∀ kv ∈ rowExtras r, ∀ kv2 ∈ canonPart r, kv2.1 ≠ kv.1 := by
    intro kv hkv kv2 hkv2
    have hkv_none : (canonicalColumnFor kv.1).isNone = true := (List.mem_filter.mp hkv).2
    have hkv2_mem : kv2.1 ∈ EXPECTED_COLS := by
      unfold canonPart at hkv2
      obtain ⟨c, hc, he⟩ := List.mem_map.mp hkv2
      rw [← he]
      exact hc
    intro hc
    exact hcanon_ne kv.1 hkv_none (hc ▸ hkv2_mem)
  have hmain : resolveRow r = canonPart r ++ rowExtras r := by
    unfold resolveRow
    exact foldl_objInsert_fresh (rowExtras r) (canonPart r) hfresh hextras_nd
  refine ⟨hmain, ?_, ?_, ?_⟩
  · rw [hmain, List.map_append]
    have e : List.map Prod.fst (canonPart r) = EXPECTED_COLS := by
      unfold canonPart
      rw [List.map_map]
      have e2 : (Prod.fst ∘ fun col : String => (col, canonValue r col)) = id := rfl
      rw [e2, List.map_id]
    rw [e]
  · intro col hcol
    rw [hmain]
    exact rowGet_append_left _ _ _ _ (rowGet_map_cols EXPECTED_COLS (canonValue r) col hcol)
  · intro kv hkv hnone
    have hkv_ex : kv ∈ rowExtras r := List.mem_filter.mpr ⟨hkv, hnone⟩
    refine ⟨hcanon_ne kv.1 hnone, hkv_ex, ?_⟩
    rw [hmain]
    rw [rowGet_append_right (canonPart r) (rowExtras r) kv.1
      (fun kv2 hkv2 => hfresh kv hkv_ex kv2 hkv2)]
    exact rowGet_mem_nodup (rowExtras r) kv hextras_nd hkv_ex

/-- Witness for C4 at a concrete input. -/
theorem c4_resolveRow_shape_witness :
    (resolveRow [("Box No", "7")]).map Prod.fst =
      EXPECTED_COLS ++ (rowExtras [("Box No", "7")]).map Prod.fst :=
  (c4_resolveRow_shape [("Box No", "7")] (by decide)).2.1

theorem accFind_bump_self :
    ∀ (m : List (String × Nat × Nat)) (k : String) (f : Nat),
      accFind (bump m k f) k =
        some (match accFind m k with
              | some tc => (tc.1 + 1, tc.2 + f)
              | none => (1, f)) := by
  intro m k f
  induction m with
  | nil => simp [bump, accFind, List.find?_cons]
  | cons e rest ih =>
    by_cases he : e.1 = k
    · have e1 : bump (e :: rest) k f = (e.1, e.2.1 + 1, e.2.2 + f) :: rest := by
        simp [bump, he]
      have e2 : accFind ((e.1, e.2.1 + 1, e.2.2 + f) :: rest) k =
          some (e.2.1 + 1, e.2.2 + f) := by
        simp [accFind, List.find?_cons, he]
      have e3 : accFind (e :: rest) k = some e.2 := by
        simp [accFind, List.find?_cons, he]
      rw [e1, e2, e3]
    · have e1 : bump (e :: rest) k f = e :: bump rest k f := by
        simp [bump, he]
      have e2 : accFind (e :: bump rest k f) k = accFind (bump rest k f) k := by
        simp [accFind, List.find?_cons, he]
      have e3 : accFind (e :: rest) k = accFind rest k := by
        simp [accFind, List.find?_cons, he]
      rw [e1, e2, e3, ih]

theorem accFind_bump_other :
    ∀ (m : List (String × Nat × Nat)) (k : String) (f : Nat) (k' : String),
      k' ≠ k → accFind (bump m k f) k' = accFind m k' := by
  intro m k f
  induction m with
  | nil =>
    intro k' hk
    simp [bump, accFind, List.find?_cons, Ne.symm hk]
  | cons e rest ih =>
    intro k' hk
    by_cases he : e.1 = k
    · have e1 : bump (e :: rest) k f = (e.1, e.2.1 + 1, e.2.2 + f) :: rest := by
        simp [bump, he]
      have hek : e.1 ≠ k' := by rw [he]; exact Ne.symm hk
      rw [e1]
      simp [accFind, List.find?_cons, hek]
    · have e1 : bump (e :: rest) k f = e :: bump rest k f := by
        simp [bump, he]
      rw [e1]
      by_cases hek : e.1 = k'
      · simp [accFind, List.find?_cons, hek]
      · have e2 : accFind (e :: bump rest k f) k' = accFind (bump rest k f) k' := by
          simp [accFind, List.find?_cons, hek]
        have e3 : accFind (e :: rest) k' = accFind rest k' := by
          simp [accFind, List.find?_cons, hek]
        rw [e2, e3, ih k' hk]

theorem accFind_eq_none_iff :
    ∀ (m : List (String × Nat × Nat)) (k : String),
      accFind m k = none ↔ k ∉ m.map Prod.fst := by
  intro m k
  constructor
  · intro h hmem
    obtain ⟨e, he, hek⟩ := List.mem_map.mp hmem
    unfold accFind at h
    have hfind := Option.map_eq_none'.mp h
    have h2 := List.find?_eq_none.mp hfind e he
    exact h2 (by simp [hek])
  · intro hmem
    have : m.find? (fun e => decide (e.1 = k)) = none := by
      rw [List.find?_eq_none]
      intro e he
      simp only [decide_eq_true_eq]
      intro hek
      exact hmem (List.mem_map.mpr ⟨e, he, hek⟩)
    simp [accFind, this]

theorem bump_keys :
    ∀ (m : List (String × Nat × Nat)) (k : String) (f : Nat),
      (bump m k f).map Prod.fst =
        if k ∈ m.map Prod.fst then m.map Prod.fst else m.map Prod.fst ++ [k] := by
  intro m k f
  induction m with
  | nil => simp [bump]
  | cons e rest ih =>
    by_cases he : e.1 = k
    · simp [bump, he]
    · have he' : ¬(k = e.1) := fun h => he h.symm
      by_cases hk : k ∈ rest.map Prod.fst
      · simp [bump, he, ih, hk, he', List.mem_cons]
      · simp [bump, he, ih, hk, he', List.mem_cons]

theorem bump_keys_nodup (m : List (String × Nat × Nat)) (k : String) (f : Nat)
    (hnd : (m.map Prod.fst).Nodup) : ((bump m k f).map Prod.fst).Nodup := by
  rw [bump_keys]
  by_cases hk : k ∈ m.map Prod.fst
  · rw [if_pos hk]; exact hnd
  · rw [if_neg hk]
    simp [List.nodup_append, hnd, hk]

theorem accFind_foldl :
    ∀ (rows : List Row) (m : List (String × Nat × Nat)) (k : String),
      accFind (rows.foldl (fun acc r => bump acc (contKey r) (finVal r)) m) k =
        match accFind m k with
        | some tc => some (tc.1 + cnt rows k, tc.2 + cntF rows k)
        | none => if cnt rows k = 0 then none else some (cnt rows k, cntF rows k) := by
  intro rows
  induction rows with
  | nil =>
    intro m k
    cases haf : accFind m k with
    | some tc => simp [haf, cnt, cntF]
    | none => simp [haf, cnt, cntF]
  | cons r rs ih =>
    intro m k
    simp only [List.foldl_cons]
    rw [ih (bump m (contKey r) (finVal r)) k]
    by_cases hk : contKey r = k
    · subst hk
      rw [accFind_bump_self]
      have hc : cnt (r :: rs) (contKey r) = cnt rs (contKey r) + 1 := by
        simp [cnt, List.filter_cons]
      have hf : cntF (r :: rs) (contKey r) = cntF rs (contKey r) + finVal r := by
        by_cases hcomp : isCompletedRow r = true
        · simp [cntF, List.filter_cons, hcomp, finVal]
        · simp only [Bool.not_eq_true] at hcomp
          simp [cntF, List.filter_cons, hcomp, finVal]
      rw [hc, hf]
      cases haf : accFind m (contKey r) with
      | some tc =>
        simp only [haf]
        simp [Prod.ext_iff]
        omega
      | none =>
        simp only [haf]
        have hne : cnt rs (contKey r) + 1 ≠ 0 := by omega
        simp [hne, Prod.ext_iff]
        omega
    · rw [accFind_bump_other m (contKey r) (finVal r) k (Ne.symm hk)]
      have hc : cnt (r :: rs) k = cnt rs k := by
        simp [cnt, List.filter_cons, hk]
      have hf : cntF (r :: rs) k = cntF rs k := by
        simp [cntF, List.filter_cons, hk]
      rw [hc, hf]

theorem accFind_accumulate (rows : List Row) (k : String) :
    accFind (accumulate rows) k =
      if cnt rows k = 0 then none else some (cnt rows k, cntF rows k) := by
  unfold accumulate
  rw [accFind_foldl rows [] k]
  rfl

theorem accumulate_keys_nodup (rows : List Row) :
    ((accumulate rows).map Prod.fst).Nodup := by
  suffices h : ∀ (l : List Row) (m : List (String × Nat × Nat)),
      (m.map Prod.fst).Nodup →
      ((l.foldl (fun acc r => bump acc (contKey r) (finVal r)) m).map Prod.fst).Nodup by
    exact h rows [] (by simp)
  intro l
  induction l with
  | nil => intro m hm; simpa using hm
  | cons r rs ih =>
    intro m hm
    simp only [List.foldl_cons]
    exact ih _ (bump_keys_nodup m (contKey r) (finVal r) hm)

theorem mem_accumulate_keys (rows : List Row) (k : String) :
    k ∈ (accumulate rows).map Prod.fst ↔ cnt rows k ≠ 0 := by
  constructor
  · intro hmem hcnt
    have h := accFind_accumulate rows k
    rw [if_pos hcnt] at h
    exact ((accFind_eq_none_iff _ k).mp h) hmem
  · intro hcnt
    by_contra hmem
    have hnone := (accFind_eq_none_iff (accumulate rows) k).mpr hmem
    rw [accFind_accumulate rows k, if_neg hcnt] at hnone
    exact Option.noConfusion hnone

theorem cnt_ne_zero_iff (rows : List Row) (k : String) :
    cnt rows k ≠ 0 ↔ ∃ r ∈ rows, contKey r = k := by
  unfold cnt
  constructor
  · intro h
    obtain ⟨r, hr⟩ := List.exists_mem_of_length_pos (Nat.pos_of_ne_zero h)
    have hm := List.mem_filter.mp hr
    exact ⟨r, hm.1, of_decide_eq_true hm.2⟩
  · rintro ⟨r, hr, hk⟩
    have hmem : r ∈ rows.filter (fun r => decide (contKey r = k)) :=
      List.mem_filter.mpr ⟨hr, by simp [hk]⟩
    have hpos := List.length_pos.mpr (List.ne_nil_of_mem hmem)
    omega

theorem mem_analyticsKeys (rows : List Row) (k : String) :
    k ∈ analyticsKeys rows ↔ ∃ r ∈ rows, contKey r = k := by
  unfold analyticsKeys
  rw [(List.perm_insertionSort strLe _).mem_iff, mem_accumulate_keys,
    cnt_ne_zero_iff]

theorem analyticsKeys_nodup (rows : List Row) : (analyticsKeys rows).Nodup := by
  unfold analyticsKeys
  exact ((List.perm_insertionSort strLe _).nodup_iff).mpr (accumulate_keys_nodup rows)

theorem analyticsKeys_sorted (rows : List Row) :
    (analyticsKeys rows).Sorted strLe :=
  List.sorted_insertionSort strLe _

theorem analyticsRec_container (rows : List Row) (k : String) :
    (analyticsRec rows k).container = k := by
  unfold analyticsRec
  cases haf : accFind (accumulate rows) k with
  | some tc => simp [haf]
  | none => simp [haf]

theorem analyticsRec_spec (rows : List Row) (k : String)
    (h : ∃ r ∈ rows, contKey r = k) :
    analyticsRec rows k =
      ⟨k, cnt rows k, cntF rows k, cnt rows k - cntF rows k,
        pctOf (cntF rows k) (cnt rows k)⟩ := by
  have hcnt : cnt rows k ≠ 0 := (cnt_ne_zero_iff rows k).mpr h
  unfold analyticsRec
  rw [accFind_accumulate, if_neg hcnt]

theorem cntF_le_cnt (rows : List Row) (k : String) : cntF rows k ≤ cnt rows k := by
  unfold cnt cntF
  refine length_filter_mono _ _ (fun r h => ?_) rows
  simp only [Bool.and_eq_true] at h
  exact h.1

theorem sum_cnt_keys :
    ∀ (keys : List String) (rows : List Row), keys.Nodup →
      (∀ r ∈ rows, contKey r ∈ keys) →
      (keys.map (cnt rows)).sum = rows.length := by
  intro keys
  induction keys with
  | nil =>
    intro rows _ hall
    have : rows = [] :=
      List.eq_nil_iff_forall_not_mem.mpr (fun r hr => absurd (hall r hr) (List.not_mem_nil _))
    subst this
    simp
  | cons k ks ih =>
    intro rows hnd hall
    simp only [List.map_cons, List.sum_cons]
    simp only [List.nodup_cons] at hnd
    have hall' : ∀ r ∈ rows.filter (fun r => !(decide (contKey r = k))),
        contKey r ∈ ks := by
      intro r hr
      have hm := List.mem_filter.mp hr
      have h1 : contKey r ≠ k := by
        have h2 := hm.2
        simp at h2
        exact h2
      rcases List.mem_cons.mp (hall r hm.1) with h | h
      · exact absurd h h1
      · exact h
    have hcnt_eq : ∀ k' ∈ ks,
        cnt rows k' = cnt (rows.filter (fun r => !(decide (contKey r = k)))) k' := by
      intro k' hk'
      have hkk : k' ≠ k := fun h => hnd.1 (h ▸ hk')
      unfold cnt
      rw [List.filter_filter]
      congr 1
      apply List.filter_congr
      intro r _
      by_cases hp : contKey r = k'
      · have hrk : contKey r ≠ k := by rw [hp]; exact hkk
        simp [hp, hrk, hkk]
      · simp [hp]
    have hsum : (ks.map (cnt rows)).sum =
        (ks.map (cnt (rows.filter (fun r => !(decide (contKey r = k)))))).sum := by
      congr 1
      exact List.map_congr_left hcnt_eq
    rw [hsum, ih _ hnd.2 hall']
    have hpart := length_filter_partition (fun r => decide (contKey r = k)) rows
    unfold cnt
    omega

theorem cntF_eq_cnt_filter (rows : List Row) (k : String) :
    cntF rows k = cnt (rows.filter isCompletedRow) k := by
  unfold cnt cntF
  rw [List.filter_filter]

theorem sum_cntF_keys (keys : List String) (rows : List Row) (hnd : keys.Nodup)
    (hall : ∀ r ∈ rows, contKey r ∈ keys) :
    (keys.map (cntF rows)).sum = (rows.filter isCompletedRow).length := by
  have e : keys.map (cntF rows) = keys.map (cnt (rows.filter isCompletedRow)) :=
    List.map_congr_left (fun k _ => cntF_eq_cnt_filter rows k)
  rw [e, sum_cnt_keys keys _ hnd (fun r hr => hall r (List.mem_filter.mp hr).1)]

theorem analyticsRecs_containers (rows : List Row) :
    (analyticsRecs rows).map Rollup.container = analyticsKeys rows := by
  unfold analyticsRecs
  rw [List.map_map]
  have e : (Rollup.container ∘ analyticsRec rows) = fun k => k := by
    funext k
    exact analyticsRec_container rows k
  rw [e]
  exact List.map_id' _

theorem analyticsRecs_totals (rows : List Row) :
    (analyticsRecs rows).map Rollup.total = (analyticsKeys rows).map (cnt rows) := by
  unfold analyticsRecs
  rw [List.map_map]
  apply List.map_congr_left
  intro k hk
  have hex := (mem_analyticsKeys rows k).mp hk
  simp [Function.comp, analyticsRec_spec rows k hex]

theorem analyticsRecs_finished (rows : List Row) :
    (analyticsRecs rows).map Rollup.finished = (analyticsKeys rows).map (cntF rows) := by
  unfold analyticsRecs
  rw [List.map_map]
  apply List.map_congr_left
  intro k hk
  have hex := (mem_analyticsKeys rows k).mp hk
  simp [Function.comp, analyticsRec_spec rows k hex]

theorem contKey_mem_analyticsKeys (rows : List Row) (r : Row) (hr : r ∈ rows) :
    contKey r ∈ analyticsKeys rows :=
  (mem_analyticsKeys rows (contKey r)).mpr ⟨r, hr, rfl⟩

theorem analytics_mem_group (rows : List Row) (k : String)
    (h : ∃ r ∈ rows, contKey r = k) :
    ∃ rec ∈ buildAnalytics rows, rec.container = k ∧ rec.total = cnt rows k ∧
      rec.finished = cntF rows k := by
  have hk : k ∈ analyticsKeys rows := (mem_analyticsKeys rows k).mpr h
  refine ⟨analyticsRec rows k, ?_, analyticsRec_container rows k, ?_, ?_⟩
  · unfold buildAnalytics
    exact List.mem_append_left _ (List.mem_map_of_mem _ hk)
  · rw [analyticsRec_spec rows k h]
  · rw [analyticsRec_spec rows k h]

/-- C1: for every sequence of normalized rows, `buildAnalytics` emits one
record per distinct container group key, in lexicographic key order,
with `total` the group's row count, `finished` its count of rows whose
REMARKS contains `done` case-insensitively, `remaining = total -
finished` and `pct = round(100 * finished / total)` (0 when the total is
0), followed by one final synthetic `ALL` record summing every group's
totals and finished counts with the same percent formula; the three-row
example of the specification and the empty sequence evaluate as
claimed. -/
theorem c1_buildAnalytics_correct :
    (∀ rows : List Row,
      buildAnalytics rows = analyticsRecs rows ++ [analyticsAll rows] ∧
      ((analyticsRecs rows).map Rollup.container).Sorted strLe ∧
      ((analyticsRecs rows).map Rollup.container).Nodup ∧
      (∀ k, k ∈ (analyticsRecs rows).map Rollup.container ↔
        ∃ r ∈ rows, contKey r = k) ∧
      (∀ rec ∈ analyticsRecs rows,
        rec.total = cnt rows rec.container ∧
        rec.finished = cntF rows rec.container ∧
        rec.finished ≤ rec.total ∧
        rec.remaining = rec.total - rec.finished ∧
        rec.pct = pctOf rec.finished rec.total) ∧
      (analyticsAll rows).container = "ALL" ∧
      (analyticsAll rows).total = ((analyticsRecs rows).map Rollup.total).sum ∧
      (analyticsAll rows).finished = ((analyticsRecs rows).map Rollup.finished).sum ∧
      (analyticsAll rows).total = rows.length ∧
      (analyticsAll rows).finished = (rows.filter isCompletedRow).length ∧
      (analyticsAll rows).remaining =
        (analyticsAll rows).total - (analyticsAll rows).finished ∧
      (analyticsAll rows).pct =
        pctOf (analyticsAll rows).finished (analyticsAll rows).total) ∧
    buildAnalytics (exampleRows.map resolveRow) =
      [⟨"1", 2, 1, 1, 50⟩, ⟨"2", 1, 1, 0, 100⟩, ⟨"ALL", 3, 2, 1, 67⟩] ∧
    buildAnalytics [] = [⟨"ALL", 0, 0, 0, 0⟩] := by
  refine ⟨?_, by decide, by decide⟩
  intro rows
  have hcover : ∀ r ∈ rows, contKey r ∈ analyticsKeys rows :=
    fun r hr => contKey_mem_analyticsKeys rows r hr
  refine ⟨rfl, ?_, ?_, ?_, ?_, rfl, rfl, rfl, ?_, ?_, rfl, rfl⟩
  · rw [analyticsRecs_containers]
    exact analyticsKeys_sorted rows
  · rw [analyticsRecs_containers]
    exact analyticsKeys_nodup rows
  · intro k
    rw [analyticsRecs_containers]
    exact mem_analyticsKeys rows k
  · intro rec hrec
    unfold analyticsRecs at hrec
    obtain ⟨k, hk, he⟩ := List.mem_map.mp hrec
    have hex := (mem_analyticsKeys rows k).mp hk
    subst he
    rw [analyticsRec_spec rows k hex]
    exact ⟨rfl, rfl, cntF_le_cnt rows k, rfl, rfl⟩
  · show ((analyticsRecs rows).map Rollup.total).sum = rows.length
    rw [analyticsRecs_totals]
    exact sum_cnt_keys (analyticsKeys rows) rows (analyticsKeys_nodup rows) hcover
  · show ((analyticsRecs rows).map Rollup.finished).sum =
      (rows.filter isCompletedRow).length
    rw [analyticsRecs_finished]
    exact sum_cntF_keys (analyticsKeys rows) rows (analyticsKeys_nodup rows) hcover

/-- Witness for C1 at the empty input. -/
theorem c1_buildAnalytics_correct_witness :
    buildAnalytics [] = [⟨"ALL", 0, 0, 0, 0⟩] :=
  c1_buildAnalytics_correct.2.2

/-- C7 counterexample: a row whose ContainerNum is the blank string is
accumulated under the group key `""`, not under the sentinel `"NA"` —
`??` only catches a missing field, not a blank one. -/
theorem c7_blank_container_cex :
    (buildAnalytics [[("ContainerNum", "")]]).map Rollup.container = ["", "ALL"] ∧
    "NA" ∉ (buildAnalytics [[("ContainerNum", "")]]).map Rollup.container := by
  refine ⟨?_, ?_⟩ <;> decide

/-- C7 amended: only a missing (absent) ContainerNum keys to the
sentinel `"NA"`; a present value — including the blank string — is used
as the group key itself.  The factory labels of the export map both a
missing and a blank Factory to `"UNKNOWN"` (the `||` coalescing). -/
theorem c7_sentinel_keys :
    (∀ r : Row,
      (rowGet r "ContainerNum" = none → contKey r = "NA") ∧
      (∀ v, rowGet r "ContainerNum" = some v → contKey r = v) ∧
      (lookupD r "Factory" = "" → factoryLabel r = "UNKNOWN") ∧
      (∀ f, lookupD r "Factory" = f → f ≠ "" → factoryLabel r = f)) ∧
    buildAnalytics [[("ContainerNum", "")]] =
      [⟨"", 1, 0, 1, 0⟩, ⟨"ALL", 1, 0, 1, 0⟩] := by
  refine ⟨?_, by decide⟩
  intro r
  refine ⟨?_, ?_, ?_, ?_⟩
  · intro h
    simp [contKey, h]
  · intro v h
    simp [contKey, h]
  · intro h
    simp [factoryLabel, h]
  · intro f h hne
    simp [factoryLabel, h, hne]

/-- Witness for C7 at a concrete input. -/
theorem c7_sentinel_keys_witness : contKey [] = "NA" :=
  (c7_sentinel_keys.1 []).1 rfl

theorem summaryRecFor_factory (rows : List Row) (fac : String) (rec : SummaryRec)
    (h : summaryRecFor rows fac = some rec) : rec.factory = fac := by
  unfold summaryRecFor at h
  by_cases hlen : ((rows.filter (fun r => decide (rowGet r "Factory" = some fac))).length = 0)
  · rw [if_pos hlen] at h
    exact Option.noConfusion h
  · rw [if_neg hlen] at h
    injection h with he
    rw [← he]

theorem summaryRecFor_isSome_iff (rows : List Row) (fac : String) :
    (summaryRecFor rows fac).isSome =
      rows.any (fun r => decide (rowGet r "Factory" = some fac)) := by
  unfold summaryRecFor
  by_cases hlen : ((rows.filter (fun r => decide (rowGet r "Factory" = some fac))).length = 0)
  · rw [if_pos hlen]
    cases hany : rows.any (fun r => decide (rowGet r "Factory" = some fac)) with
    | false => rfl
    | true => exact absurd hlen ((any_iff_filter_len _ rows).mp hany)
  · rw [if_neg hlen]
    rw [(any_iff_filter_len _ rows).mpr hlen]
    rfl

theorem summaryRecsAux_factories (rows : List Row) :
    ∀ os : List String,
      (summaryRecsAux rows os).map SummaryRec.factory =
        os.filter (fun fac => rows.any (fun r => decide (rowGet r "Factory" = some fac))) := by
  intro os
  induction os with
  | nil => rfl
  | cons o os' ih =>
    unfold summaryRecsAux at ih ⊢
    cases hrec : summaryRecFor rows o with
    | none =>
      simp only [List.filterMap_cons, hrec]
      have hany : rows.any (fun r => decide (rowGet r "Factory" = some o)) = false := by
        have h2 := summaryRecFor_isSome_iff rows o
        rw [hrec] at h2
        exact h2.symm
      rw [List.filter_cons]
      simp [hany, ih]
    | some rec =>
      simp only [List.filterMap_cons, hrec]
      have hany : rows.any (fun r => decide (rowGet r "Factory" = some o)) = true := by
        have h2 := summaryRecFor_isSome_iff rows o
        rw [hrec] at h2
        exact h2.symm
      rw [List.filter_cons]
      simp [hany, ih, summaryRecFor_factory rows o rec hrec]

theorem summaryRecs_factory_mem (rows : List Row) :
    ∀ rec ∈ summaryRecs rows, rec.factory ∈ factoryOrder := by
  intro rec hrec
  unfold summaryRecs summaryRecsAux at hrec
  obtain ⟨fac, hfac, hrf⟩ := List.mem_filterMap.mp hrec
  exact (summaryRecFor_factory rows fac rec hrf) ▸ hfac

/-- C8: the Summary sheet emits per-factory records exactly for the
factories of the fixed priority list (F200, F100, AIO) that are present
in the dataset, in exactly that order, followed by the `ALL` record;
factory values outside the fixed list never appear in the Summary, while
every row — whatever its factory — is still counted, grouped by
container, in the unfiltered per-container analytics rollup. -/
theorem c8_summary_priority :
    (∀ rows : List Row,
      (buildSummary rows).map SummaryRec.factory =
        factoryOrder.filter
          (fun fac => rows.any (fun r => decide (rowGet r "Factory" = some fac))) ++
          ["ALL"] ∧
      ∀ rec ∈ summaryRecs rows, rec.factory ∈ factoryOrder) ∧
    (∀ (rows : List Row) (r : Row), r ∈ rows →
      rowGet r "Factory" ∉ factoryOrder.map some →
      ∃ rec ∈ buildAnalytics rows, rec.container = contKey r ∧
        rec.total = cnt rows (contKey r) ∧ rec.total ≠ 0) := by
  constructor
  · intro rows
    constructor
    · unfold buildSummary
      rw [List.map_append]
      unfold summaryRecs
      rw [summaryRecsAux_factories rows factoryOrder]
      rfl
    · exact summaryRecs_factory_mem rows
  · intro rows r hr _
    obtain ⟨rec, hrec, hc, ht, _⟩ := analytics_mem_group rows (contKey r) ⟨r, hr, rfl⟩
    refine ⟨rec, hrec, hc, ht, ?_⟩
    rw [ht]
    exact (cnt_ne_zero_iff rows (contKey r)).mpr ⟨r, hr, rfl⟩

/-- Witness for C8 at a concrete input. -/
theorem c8_summary_priority_witness :
    (buildSummary [[("Factory", "F100")]]).map SummaryRec.factory =
      factoryOrder.filter
        (fun fac => [[("Factory", "F100")]].any
          (fun r => decide (rowGet r "Factory" = some fac))) ++ ["ALL"] :=
  (c8_summary_priority.1 [[("Factory", "F100")]]).1

theorem factoryLabel_ne_empty (r : Row) : factoryLabel r ≠ "" := by
  unfold factoryLabel
  simp only []
  split_ifs with h
  · decide
  · exact h

theorem factoriesList_extends :
    ∀ (l : List Row) (acc : List String) (x : String), x ∈ acc →
      x ∈ l.foldl (fun a r => if factoryLabel r ∈ a then a else a ++ [factoryLabel r]) acc := by
  intro l
  induction l with
  | nil => intro acc x hx; simpa using hx
  | cons r rs ih =>
    intro acc x hx
    simp only [List.foldl_cons]
    apply ih
    by_cases hmem : factoryLabel r ∈ acc
    · rw [if_pos hmem]; exact hx
    · rw [if_neg hmem]; exact List.mem_append_left _ hx

theorem factoriesList_covers :
    ∀ (l : List Row) (acc : List String) (r : Row), r ∈ l →
      factoryLabel r ∈
        l.foldl (fun a r => if factoryLabel r ∈ a then a else a ++ [factoryLabel r]) acc := by
  intro l
  induction l with
  | nil => intro acc r hr; cases hr
  | cons r0 rs ih =>
    intro acc r hr
    simp only [List.foldl_cons]
    rcases List.mem_cons.mp hr with h | h
    · subst h
      apply factoriesList_extends
      by_cases hmem : factoryLabel r ∈ acc
      · rw [if_pos hmem]; exact hmem
      · rw [if_neg hmem]
        exact List.mem_append_right _ (List.mem_singleton.mpr rfl)
    · exact ih _ r h

theorem mem_factoriesList_src :
    ∀ (l : List Row) (acc : List String) (x : String),
      x ∈ l.foldl (fun a r => if factoryLabel r ∈ a then a else a ++ [factoryLabel r]) acc →
      x ∈ acc ∨ ∃ r ∈ l, factoryLabel r = x := by
  intro l
  induction l with
  | nil => intro acc x hx; left; simpa using hx
  | cons r0 rs ih =>
    intro acc x hx
    simp only [List.foldl_cons] at hx
    rcases ih _ x hx with h | h
    · by_cases hmem : factoryLabel r0 ∈ acc
      · rw [if_pos hmem] at h
        left
        exact h
      · rw [if_neg hmem] at h
        rcases List.mem_append.mp h with h2 | h2
        · left; exact h2
        · right
          exact ⟨r0, List.mem_cons_self _ _, (List.mem_singleton.mp h2).symm⟩
    · right
      obtain ⟨r, hr, he⟩ := h
      exact ⟨r, List.mem_cons_of_mem _ hr, he⟩

theorem factoriesList_ne_empty (rows : List Row) (fac : String)
    (h : fac ∈ factoriesList rows) : fac ≠ "" := by
  unfold factoriesList at h
  rcases mem_factoriesList_src rows [] fac h with h2 | h2
  · simp at h2
  · obtain ⟨r, _, he⟩ := h2
    rw [← he]
    exact factoryLabel_ne_empty r

/-- C10 counterexample: in a dataset holding a blank-Factory row AND a
row whose Factory is the literal string `UNKNOWN`, the Analytics_UNKNOWN
sheet is not the empty `ALL`-only rollup — the literal row matches the
strict-equality filter and is counted. -/
theorem c10_unknown_sheet_cex :
    lookupD [("Factory", "")] "Factory" = "" ∧
    [("Factory", "")] ∈ c10Rows ∧
    "UNKNOWN" ∈ factoriesList c10Rows ∧
    analyticsSheetFor c10Rows "UNKNOWN" =
      [⟨"NA", 1, 1, 0, 100⟩, ⟨"ALL", 1, 1, 0, 100⟩] ∧
    analyticsSheetFor c10Rows "UNKNOWN" ≠ [⟨"ALL", 0, 0, 0, 0⟩] := by
  refine ⟨?_, ?_, ?_, ?_, ?_⟩ <;> decide

/-- C10 amended: when some row's Factory is blank (or missing) the
export enumerates an `UNKNOWN` label and emits an Analytics_UNKNOWN
sheet; blank-Factory rows match no per-factory sheet filter (every
label is nonempty while the raw field equals `""` or is absent), and
— provided no row's Factory is the literal string `UNKNOWN` — the
Analytics_UNKNOWN sheet contains only the synthetic `ALL` record with
total 0, finished 0, percent 0. -/
theorem c10_unknown_sheet :
    ∀ rows : List Row,
      (∃ r ∈ rows, lookupD r "Factory" = "") →
      (∀ r ∈ rows, rowGet r "Factory" ≠ some "UNKNOWN") →
      "UNKNOWN" ∈ factoriesList rows ∧
      (∀ fac ∈ factoriesList rows, ∀ r ∈ rows, lookupD r "Factory" = "" →
        rowGet r "Factory" ≠ some fac) ∧
      analyticsSheetFor rows "UNKNOWN" = [⟨"ALL", 0, 0, 0, 0⟩] := by
  intro rows hblank hnolit
  obtain ⟨rb, hrb, hrbblank⟩ := hblank
  refine ⟨?_, ?_, ?_⟩
  · have hlab : factoryLabel rb = "UNKNOWN" := by
      simp [factoryLabel, hrbblank]
    rw [← hlab]
    unfold factoriesList
    exact factoriesList_covers rows [] rb hrb
  · intro fac hfac r _ hrblank hsome
    have hlk : lookupD r "Factory" = fac := by
      simp [lookupD, hsome]
    rw [hrblank] at hlk
    exact (factoriesList_ne_empty rows fac hfac) hlk.symm
  · have hfilter :
        rows.filter (fun r => decide (rowGet r "Factory" = some "UNKNOWN")) = [] := by
      rw [List.filter_eq_nil_iff]
      intro r hr
      simp [hnolit r hr]
    unfold analyticsSheetFor
    rw [hfilter]
    decide

/-- Witness for C10 at a concrete input. -/
theorem c10_unknown_sheet_witness :
    analyticsSheetFor [[("Factory", "")]] "UNKNOWN" = [⟨"ALL", 0, 0, 0, 0⟩] :=
  (c10_unknown_sheet [[("Factory", "")]] (by decide) (by decide)).2.2
